import Mathlib

/-!
Shallow embedding of the SignalFence rate limiter core.

Sources embedded here:
* `pkg/signalfence/token_bucket.go` — the `Bucket` token bucket (lazy refill).
* `pkg/signalfence/errors.go` — error kinds.
* the in-memory store (`Store`, `BucketConfig`, `InMemoryStore`, `bucketEntry`,
  `NewInMemoryStore`, `GetBucket`, `Cleanup`, `Count`).
* `pkg/signalfence/limiter.go` — `rateLimiter.Allow` producing a `Decision`.
* `core/types.go` + the core package `TokenBucket.Check` (second variant).

Modelling conventions: Go `float64` values are modelled as exact rationals ℚ;
wall-clock instants are rationals measured in seconds; `time.Duration` is an
integer number of nanoseconds; the Go float→int64 conversion truncates toward
zero, modelled by `truncToInt`; the Go map of the store is an association list
from keys to entries; pointer mutation is modelled by explicit state passing
(a function returns the updated bucket/store alongside its result).
-/

namespace SignalFence

/-- Error kinds of `pkg/signalfence/errors.go`. -/
inductive Err where
  | negativeCapacity
  | negativeRefillRate
  | invalidKey
  | storeFailed
  deriving DecidableEq

/-- Conversion in Go of a non-integral float to `int64` truncates toward zero. -/
def truncToInt (q : ℚ) : Int := if 0 ≤ q then ⌊q⌋ else ⌈q⌉

/-- The `Bucket` struct of `token_bucket.go` (the mutex is concurrency plumbing
and has no content in a sequential embedding). -/
structure Bucket where
  capacity : Int
  tokens : ℚ
  refillRate : ℚ
  lastRefillTime : ℚ
  deriving DecidableEq

/-- Embeds `NewBucket` of `token_bucket.go`: validates the configuration and starts
with a full bucket, `lastRefillTime = now`. -/
def NewBucket (capacity : Int) (refillRate : ℚ) (now : ℚ) : Except Err Bucket :=
  if capacity ≤ 0 then .error .negativeCapacity
  else if refillRate ≤ 0 then .error .negativeRefillRate
  else .ok { capacity := capacity, tokens := (capacity : ℚ),
             refillRate := refillRate, lastRefillTime := now }

/-- Embeds `Bucket.refill` of `token_bucket.go`: add `elapsed * refillRate` tokens,
cap at capacity, stamp `lastRefillTime = now`. -/
def Bucket.refill (b : Bucket) (now : ℚ) : Bucket :=
  let elapsed := now - b.lastRefillTime
  let tokensToAdd := elapsed * b.refillRate
  let t := b.tokens + tokensToAdd
  let t2 := if t > (b.capacity : ℚ) then (b.capacity : ℚ) else t
  { b with tokens := t2, lastRefillTime := now }

/-- Embeds `Bucket.AllowN` of `token_bucket.go`: refill, then consume `n` tokens if
`tokens >= n`. Returns the updated bucket and the admission verdict. -/
def Bucket.AllowN (b : Bucket) (n : Int) (now : ℚ) : Bucket × Bool :=
  let br := b.refill now
  if (n : ℚ) ≤ br.tokens then ({ br with tokens := br.tokens - (n : ℚ) }, true)
  else (br, false)

/-- Embeds `Bucket.Allow` of `token_bucket.go`: `AllowN(1)`. -/
def Bucket.Allow (b : Bucket) (now : ℚ) : Bucket × Bool := b.AllowN 1 now

/-- Embeds `Bucket.Remaining` of `token_bucket.go`: refill, then `int64(b.tokens)`. -/
def Bucket.Remaining (b : Bucket) (now : ℚ) : Bucket × Int :=
  let br := b.refill now
  (br, truncToInt br.tokens)

/-- Embeds `Bucket.RetryAfter` of `token_bucket.go`: refill; zero if a token is
available, otherwise `time.Duration(secondsNeeded * float64(time.Second))`,
i.e. the number of nanoseconds truncated toward zero. -/
def Bucket.RetryAfter (b : Bucket) (now : ℚ) : Bucket × Int :=
  let br := b.refill now
  if (1 : ℚ) ≤ br.tokens then (br, 0)
  else
    let tokensNeeded := 1 - br.tokens
    let secondsNeeded := tokensNeeded / b.refillRate
    (br, truncToInt (secondsNeeded * 1000000000))

/-- Embeds `Bucket.Capacity` accessor. -/
def Bucket.Capacity (b : Bucket) : Int := b.capacity

/-- Embeds `Bucket.RefillRate` accessor. -/
def Bucket.RefillRate (b : Bucket) : ℚ := b.refillRate

/-- Embeds `BucketConfig` of the store source file. -/
structure BucketConfig where
  Capacity : Int
  RefillRate : ℚ
  deriving DecidableEq

/-- Embeds `bucketEntry` of the store source file: a bucket plus its `lastAccessed`
timestamp used for idle eviction. -/
structure bucketEntry where
  bucket : Bucket
  lastAccessed : ℚ
  deriving DecidableEq

/-- Embeds `InMemoryStore` of the store source file; the Go map is an association
list (first match wins, as a map has unique keys). -/
structure InMemoryStore where
  buckets : List (String × bucketEntry)
  config : BucketConfig
  cleanupAge : ℚ
  lastCleanup : ℚ
  deriving DecidableEq

/-- Embeds `NewInMemoryStore`: validates the bucket configuration exactly as
`NewBucket` does and starts with an empty map. -/
def NewInMemoryStore (config : BucketConfig) (cleanupAge : ℚ) (now : ℚ) :
    Except Err InMemoryStore :=
  if config.Capacity ≤ 0 then .error .negativeCapacity
  else if config.RefillRate ≤ 0 then .error .negativeRefillRate
  else .ok { buckets := [], config := config, cleanupAge := cleanupAge, lastCleanup := now }

/-- Map lookup (`s.buckets[key]` in Go). -/
def lookupEntry : List (String × bucketEntry) → String → Option bucketEntry
  | [], _ => none
  | (k, e) :: rest, key => if k = key then some e else lookupEntry rest key

/-- In-place update of the `lastAccessed` field of an existing entry
(`entry.lastAccessed = time.Now()` through the pointer held by the map). -/
def touchEntry (l : List (String × bucketEntry)) (key : String) (now : ℚ) :
    List (String × bucketEntry) :=
  l.map fun kv => if kv.1 = key then (kv.1, { kv.2 with lastAccessed := now }) else kv

/-- In-place update of the bucket of an existing entry (in Go the map holds a
pointer to the bucket, so bucket mutation is visible through the store). -/
def setBucket (l : List (String × bucketEntry)) (key : String) (b : Bucket) :
    List (String × bucketEntry) :=
  l.map fun kv => if kv.1 = key then (kv.1, { kv.2 with bucket := b }) else kv

/-- Embeds `InMemoryStore.GetBucket`: reject the empty key; return the existing entry
(touching `lastAccessed`) or create a fresh full bucket and insert it. The
updated store is returned alongside the result (state passing). -/
def InMemoryStore.GetBucket (s : InMemoryStore) (key : String) (now : ℚ) :
    InMemoryStore × Except Err Bucket :=
  if key = "" then (s, .error .invalidKey)
  else
    match lookupEntry s.buckets key with
    | some entry => ({ s with buckets := touchEntry s.buckets key now }, .ok entry.bucket)
    | none =>
      match NewBucket s.config.Capacity s.config.RefillRate now with
      | .error _ => (s, .error .storeFailed)
      | .ok b => ({ s with buckets := (key, ⟨b, now⟩) :: s.buckets }, .ok b)

/-- Embeds `InMemoryStore.Cleanup`: no-op returning 0 when `cleanupAge == 0`;
otherwise delete every entry with `lastAccessed` before `now - cleanupAge`
and return how many were deleted. -/
def InMemoryStore.Cleanup (s : InMemoryStore) (now : ℚ) : InMemoryStore × Int :=
  if s.cleanupAge = 0 then (s, 0)
  else
    let cutoff := now - s.cleanupAge
    ({ s with
        buckets := s.buckets.filter fun kv => !decide (kv.2.lastAccessed < cutoff),
        lastCleanup := now },
     ((s.buckets.countP fun kv => decide (kv.2.lastAccessed < cutoff) : Nat) : Int))

/-- Embeds `InMemoryStore.Count`: number of live entries. -/
def InMemoryStore.Count (s : InMemoryStore) : Int := s.buckets.length

/-- The `Decision` struct of `limiter.go` (`Route` is filled only by the HTTP
wrapper `AllowRequest` and stays out of the core embedding). -/
structure Decision where
  Allowed : Bool
  Remaining : Int
  Limit : Int
  RetryAfter : Int
  Key : String
  deriving DecidableEq

/-- Embeds `rateLimiter.Allow` of `limiter.go`: reject the empty key, fetch or create
the bucket, consume one token, and assemble the `Decision` from `Remaining()`,
`Capacity()` and (on denial) `RetryAfter()`. The bucket mutations reach the
store through its pointer, modelled by writing the final bucket back. -/
def rateLimiterAllow (s : InMemoryStore) (key : String) (now : ℚ) :
    InMemoryStore × Except Err Decision :=
  if key = "" then (s, .error .invalidKey)
  else
    match s.GetBucket key now with
    | (s1, .error e) => (s1, .error e)
    | (s1, .ok b) =>
      let p1 := b.Allow now
      let p2 := p1.1.Remaining now
      let p3 := if p1.2 then (p2.1, (0 : Int)) else p2.1.RetryAfter now
      ({ s1 with buckets := setBucket s1.buckets key p3.1 },
       .ok { Allowed := p1.2, Remaining := p2.2, Limit := b.capacity,
             RetryAfter := p3.2, Key := key })

end SignalFence


namespace Core

/-- Embeds `Config` of `core/types.go` (note: capacity is a float here, unlike the
`int64` of the `signalfence` variant). -/
structure Config where
  Capacity : ℚ
  RefillPerSec : ℚ
  deriving DecidableEq

/-- Embeds `BucketState` of `core/types.go`. -/
structure BucketState where
  Tokens : ℚ
  LastRefillAt : ℚ
  deriving DecidableEq

/-- Embeds `CheckResult` of `core/types.go`. -/
structure CheckResult where
  Allowed : Bool
  Remaining : ℚ
  RetryAfterMs : Int
  Limit : ℚ
  deriving DecidableEq

/-- Embeds `TokenBucket.Check` of the core package: initialize a nil state full,
refill capped with `math.Min`, admit when at least one token is available,
otherwise report `ceil(retryAfterSec * 1000)` milliseconds. -/
def TokenBucket.Check (config : Config) (state : Option BucketState) (now : ℚ) :
    BucketState × CheckResult :=
  let st : BucketState := match state with
    | none => { Tokens := config.Capacity, LastRefillAt := now }
    | some st => st
  let elapsed := now - st.LastRefillAt
  let tokensToAdd := elapsed * config.RefillPerSec
  let newTokens := min (st.Tokens + tokensToAdd) config.Capacity
  if (1 : ℚ) ≤ newTokens then
    ({ Tokens := newTokens - 1, LastRefillAt := now },
     { Allowed := true, Remaining := newTokens - 1, RetryAfterMs := 0,
       Limit := config.Capacity })
  else
    let tokensNeeded := 1 - newTokens
    let retryAfterSec := tokensNeeded / config.RefillPerSec
    ({ Tokens := newTokens, LastRefillAt := now },
     { Allowed := false, Remaining := 0, RetryAfterMs := ⌈retryAfterSec * 1000⌉,
       Limit := config.Capacity })

end Core

namespace SignalFence

/-! ### Basic facts about `Bucket.refill` -/

theorem refill_tokens (b : Bucket) (now : ℚ) :
    (b.refill now).tokens
      = min ((b.capacity : ℚ)) (b.tokens + (now - b.lastRefillTime) * b.refillRate) := by
  simp only [Bucket.refill]
  split
  · exact (min_eq_left (le_of_lt (by assumption))).symm
  · exact (min_eq_right (le_of_not_lt (by assumption))).symm

theorem refill_lastRefillTime (b : Bucket) (now : ℚ) :
    (b.refill now).lastRefillTime = now := rfl

theorem refill_capacity (b : Bucket) (now : ℚ) :
    (b.refill now).capacity = b.capacity := rfl

theorem refill_refillRate (b : Bucket) (now : ℚ) :
    (b.refill now).refillRate = b.refillRate := rfl

/-- Refilling at the very instant of the last refill changes nothing, provided
the bucket is at or below capacity. -/
theorem refill_self (b : Bucket) (now : ℚ) (h1 : b.tokens ≤ (b.capacity : ℚ))
    (h2 : b.lastRefillTime = now) : b.refill now = b := by
  subst h2
  simp only [Bucket.refill, sub_self, zero_mul, add_zero]
  rw [if_neg (not_lt.mpr h1)]

/-- A refill that would land at or above capacity clips the tokens to exactly
the capacity. -/
theorem refill_overfull (b1 : Bucket) (now2 : ℚ)
    (h : (b1.capacity : ℚ) ≤ b1.tokens + (now2 - b1.lastRefillTime) * b1.refillRate) :
    (b1.refill now2).tokens = (b1.capacity : ℚ) := by
  rw [refill_tokens]
  exact min_eq_left h

theorem remaining_fst (b : Bucket) (now : ℚ) : (b.Remaining now).1 = b.refill now := rfl

theorem retryAfter_fst (b : Bucket) (now : ℚ) : (b.RetryAfter now).1 = b.refill now := by
  simp only [Bucket.RetryAfter]
  split <;> rfl

theorem allowN_fst_lastRefillTime (b : Bucket) (n : Int) (now : ℚ) :
    (b.AllowN n now).1.lastRefillTime = now := by
  simp only [Bucket.AllowN]
  split <;> rfl

theorem allowN_fst_capacity (b : Bucket) (n : Int) (now : ℚ) :
    (b.AllowN n now).1.capacity = b.capacity := by
  simp only [Bucket.AllowN]
  split <;> rfl

/-! ### The bucket invariant `0 ≤ tokens ≤ capacity` -/

/-- The state invariant of a well-formed bucket: positive configuration and a
token count within `[0, capacity]`. -/
def BucketInv (b : Bucket) : Prop :=
  0 < b.capacity ∧ 0 < b.refillRate ∧ 0 ≤ b.tokens ∧ b.tokens ≤ (b.capacity : ℚ)

theorem refill_inv (b : Bucket) (now : ℚ) (h : BucketInv b)
    (ht : b.lastRefillTime ≤ now) : BucketInv (b.refill now) := by
  obtain ⟨hc, hr, h0, hcap⟩ := h
  refine ⟨hc, hr, ?_, ?_⟩
  · rw [refill_tokens]
    exact le_min (by exact_mod_cast hc.le)
      (add_nonneg h0 (mul_nonneg (sub_nonneg.mpr ht) hr.le))
  · rw [refill_tokens, refill_capacity]
    exact min_le_left _ _

theorem allowN_inv (b : Bucket) (n : Int) (now : ℚ) (h : BucketInv b)
    (ht : b.lastRefillTime ≤ now) (hn : 1 ≤ n) : BucketInv (b.AllowN n now).1 := by
  have hbr := refill_inv b now h ht
  obtain ⟨hc, hr, h0, hcap⟩ := hbr
  simp only [Bucket.AllowN]
  split
  · exact ⟨hc, hr, sub_nonneg.mpr (by assumption),
      le_trans (sub_le_self _ (by exact_mod_cast (le_trans Int.one_nonneg hn : (0:ℤ) ≤ n))) hcap⟩
  · exact ⟨hc, hr, h0, hcap⟩

/-! ### Operation traces over a single bucket (claim C1) -/

/-- The bucket-mutating calls a caller can make. -/
inductive Op where
  | allow
  | allowN (n : Int)
  | remaining
  | retryAfter

/-- The bucket state after one call (the primary output of the call is dropped; only
the state evolution matters for the invariant). -/
def applyOp (b : Bucket) : Op → ℚ → Bucket
  | .allow, t => (b.Allow t).1
  | .allowN n, t => (b.AllowN n t).1
  | .remaining, t => (b.Remaining t).1
  | .retryAfter, t => (b.RetryAfter t).1

/-- Argument discipline of the claim: `AllowN` is called with `n ≥ 1`. -/
def opOK : Op → Bool
  | .allowN n => decide (1 ≤ n)
  | _ => true

/-- A trace with non-decreasing call times starting no earlier than `t0`,
every `AllowN` argument at least 1. -/
def validTrace : ℚ → List (Op × ℚ) → Bool
  | _, [] => true
  | t0, (op, t) :: rest => decide (t0 ≤ t) && opOK op && validTrace t rest

/-- Run a timed trace of calls against a bucket. -/
def runOps (b : Bucket) : List (Op × ℚ) → Bucket
  | [] => b
  | (op, t) :: rest => runOps (applyOp b op t) rest

theorem applyOp_lastRefillTime (b : Bucket) (op : Op) (t : ℚ) :
    (applyOp b op t).lastRefillTime = t := by
  cases op with
  | allow => exact allowN_fst_lastRefillTime b 1 t
  | allowN n => exact allowN_fst_lastRefillTime b n t
  | remaining => rfl
  | retryAfter => rw [applyOp, retryAfter_fst]; rfl

theorem applyOp_inv (b : Bucket) (op : Op) (t : ℚ) (h : BucketInv b)
    (ht : b.lastRefillTime ≤ t) (hop : opOK op = true) : BucketInv (applyOp b op t) := by
  cases op with
  | allow => exact allowN_inv b 1 t h ht le_rfl
  | allowN n => exact allowN_inv b n t h ht (of_decide_eq_true hop)
  | remaining => exact refill_inv b t h ht
  | retryAfter => rw [applyOp, retryAfter_fst]; exact refill_inv b t h ht

theorem runOps_inv (ops : List (Op × ℚ)) (b : Bucket) (h : BucketInv b)
    (hv : validTrace b.lastRefillTime ops = true) : BucketInv (runOps b ops) := by
  induction ops generalizing b with
  | nil => exact h
  | cons p rest ih =>
    obtain ⟨op, t⟩ := p
    simp only [validTrace, Bool.and_eq_true, decide_eq_true_eq] at hv
    obtain ⟨⟨ht, hop⟩, hrest⟩ := hv
    refine ih (applyOp b op t) (applyOp_inv b op t h ht hop) ?_
    rw [applyOp_lastRefillTime]
    exact hrest

/-- C1: starting from any successfully constructed bucket, any sequence of
`Allow` / `AllowN (n ≥ 1)` / `Remaining` / `RetryAfter` calls at non-decreasing
times keeps `0 ≤ tokens ≤ capacity`; in particular an arbitrarily long idle
refill caps tokens at capacity rather than exceeding it. -/
theorem tokens_within_bounds (c : Int) (r t0 : ℚ) (b : Bucket)
    (hnew : NewBucket c r t0 = .ok b) (ops : List (Op × ℚ))
    (hv : validTrace t0 ops = true) :
    0 ≤ (runOps b ops).tokens ∧ (runOps b ops).tokens ≤ ((runOps b ops).capacity : ℚ) := by
  simp only [NewBucket] at hnew
  split at hnew
  · exact absurd hnew (by simp)
  split at hnew
  · exact absurd hnew (by simp)
  rw [Except.ok.injEq] at hnew
  have hc : 0 < c := lt_of_not_le (by assumption)
  have hr : 0 < r := lt_of_not_le (by assumption)
  subst hnew
  have hb : BucketInv ⟨c, (c : ℚ), r, t0⟩ :=
    ⟨hc, hr, by show (0 : ℚ) ≤ (c : ℚ); exact_mod_cast hc.le, le_rfl⟩
  have := runOps_inv ops ⟨c, (c : ℚ), r, t0⟩ hb hv
  exact ⟨this.2.2.1, this.2.2.2⟩

/-- Witness for C1 at a concrete construction and trace. -/
theorem tokens_within_bounds_witness :
    0 ≤ (runOps ⟨2, 2, 1, 0⟩ [(Op.allow, 0), (Op.allowN 1, 1), (Op.retryAfter, 2)]).tokens ∧
      (runOps ⟨2, 2, 1, 0⟩ [(Op.allow, 0), (Op.allowN 1, 1), (Op.retryAfter, 2)]).tokens
        ≤ ((runOps ⟨2, 2, 1, 0⟩ [(Op.allow, 0), (Op.allowN 1, 1), (Op.retryAfter, 2)]).capacity : ℚ) :=
  tokens_within_bounds 2 1 0 ⟨2, 2, 1, 0⟩ (by with_unfolding_all rfl) _
    (by with_unfolding_all rfl)

/-- C2: `AllowN n` (n ≥ 1) refills first (post-refill tokens are
`min(capacity, tokens + elapsed·refillRate)` and `lastRefillTime = now`),
returns true exactly when the post-refill tokens are at least `n`, consumes
exactly `n` on success, leaves the post-refill tokens unchanged on denial,
and `Allow` is `AllowN 1`. -/
theorem allowN_contract (b : Bucket) (n : Int) (now : ℚ) (hn : 1 ≤ n) :
    (b.refill now).tokens
        = min ((b.capacity : ℚ)) (b.tokens + (now - b.lastRefillTime) * b.refillRate)
    ∧ (b.refill now).lastRefillTime = now
    ∧ ((b.AllowN n now).2 = true ↔ (n : ℚ) ≤ (b.refill now).tokens)
    ∧ ((b.AllowN n now).2 = true →
        (b.AllowN n now).1.tokens = (b.refill now).tokens - (n : ℚ))
    ∧ ((b.AllowN n now).2 = false →
        (b.AllowN n now).1.tokens = (b.refill now).tokens)
    ∧ b.Allow now = b.AllowN 1 now := by
  refine ⟨refill_tokens b now, rfl, ?_, ?_, ?_, rfl⟩
  · simp only [Bucket.AllowN]
    split
    · next h => simp [h]
    · next h => simp [h]
  · simp only [Bucket.AllowN]
    split
    · intro _; rfl
    · intro h; simp at h
  · simp only [Bucket.AllowN]
    split
    · intro h; simp at h
    · intro _; rfl

/-- Witness for C2 at `n = 2` on a concrete bucket. -/
theorem allowN_contract_witness :
    ((Bucket.AllowN ⟨5, 5, 1, 0⟩ 2 3).2 = true
      ↔ (2 : ℚ) ≤ (Bucket.refill ⟨5, 5, 1, 0⟩ 3).tokens) :=
  (allowN_contract ⟨5, 5, 1, 0⟩ 2 3 (by decide)).2.2.1

/-- C3: `NewBucket` fails with the invalid-capacity error when capacity ≤ 0,
with the invalid-refill-rate error when the refill rate is ≤ 0, and otherwise
yields a full bucket stamped with the construction time; `NewInMemoryStore`
applies the same validation to its bucket configuration. -/
theorem construction_validation (c : Int) (r now age : ℚ) :
    (c ≤ 0 → NewBucket c r now = .error .negativeCapacity)
    ∧ (0 < c → r ≤ 0 → NewBucket c r now = .error .negativeRefillRate)
    ∧ (0 < c → 0 < r → NewBucket c r now = .ok ⟨c, (c : ℚ), r, now⟩)
    ∧ (c ≤ 0 → NewInMemoryStore ⟨c, r⟩ age now = .error .negativeCapacity)
    ∧ (0 < c → r ≤ 0 → NewInMemoryStore ⟨c, r⟩ age now = .error .negativeRefillRate)
    ∧ (0 < c → 0 < r → NewInMemoryStore ⟨c, r⟩ age now = .ok ⟨[], ⟨c, r⟩, age, now⟩) := by
  refine ⟨fun h1 => ?_, fun h1 h2 => ?_, fun h1 h2 => ?_,
          fun h1 => ?_, fun h1 h2 => ?_, fun h1 h2 => ?_⟩ <;>
    simp only [NewBucket, NewInMemoryStore]
  · rw [if_pos h1]
  · rw [if_neg (not_le.mpr h1), if_pos h2]
  · rw [if_neg (not_le.mpr h1), if_neg (not_le.mpr h2)]
  · rw [if_pos h1]
  · rw [if_neg (not_le.mpr h1), if_pos h2]
  · rw [if_neg (not_le.mpr h1), if_neg (not_le.mpr h2)]

/-- Witness for C3 on a valid configuration. -/
theorem construction_validation_witness :
    NewBucket 2 1 0 = .ok ⟨2, (2 : ℚ), 1, 0⟩ :=
  (construction_validation 2 1 0 5).2.2.1 (by decide) (by norm_num)

/-- C4 counterexample: on a drained bucket with capacity 1 and refill rate 3,
`RetryAfter()` returns `time.Duration((1/3)·10⁹) = 333333333` nanoseconds,
while the claimed `ceil((1 - tokens)/refillRate · 1000)` milliseconds is
`334 ms = 334000000 ns`; the two differ. -/
theorem retryAfter_not_ceil_ms :
    (Bucket.RetryAfter ⟨1, 0, 3, 0⟩ 0).2 = 333333333 ∧
    (⌈(1 - (Bucket.refill ⟨1, 0, 3, 0⟩ 0).tokens) / (3 : ℚ) * 1000⌉ * 1000000 : ℤ) = 334000000 ∧
    (Bucket.RetryAfter ⟨1, 0, 3, 0⟩ 0).2
      ≠ (⌈(1 - (Bucket.refill ⟨1, 0, 3, 0⟩ 0).tokens) / (3 : ℚ) * 1000⌉ * 1000000 : ℤ) := by
  have h1 : (Bucket.RetryAfter ⟨1, 0, 3, 0⟩ 0).2 = 333333333 := by with_unfolding_all rfl
  have h2 : (⌈(1 - (Bucket.refill ⟨1, 0, 3, 0⟩ 0).tokens) / (3 : ℚ) * 1000⌉ * 1000000 : ℤ)
      = 334000000 := by with_unfolding_all rfl
  exact ⟨h1, h2, by rw [h1, h2]; decide⟩

/-- C4 (amended): `RetryAfter()` first refills; with at least one post-refill
token it returns zero; otherwise it returns the duration
`(1 - tokens)/refillRate` seconds converted to whole nanoseconds rounded
down (Go truncates `secondsNeeded * 1e9` toward zero), not the ceiling of
the corresponding number of milliseconds. -/
theorem retryAfter_spec (b : Bucket) (now : ℚ) (hr : 0 < b.refillRate) :
    (b.RetryAfter now).1 = b.refill now
    ∧ ((1 : ℚ) ≤ (b.refill now).tokens → (b.RetryAfter now).2 = 0)
    ∧ ((b.refill now).tokens < 1 →
        (b.RetryAfter now).2 = ⌊(1 - (b.refill now).tokens) / b.refillRate * 1000000000⌋) := by
  refine ⟨retryAfter_fst b now, ?_, ?_⟩
  · intro h
    simp only [Bucket.RetryAfter]
    rw [if_pos h]
  · intro h
    simp only [Bucket.RetryAfter]
    rw [if_neg (not_le.mpr h), truncToInt, if_pos]
    exact mul_nonneg (div_nonneg (by linarith) hr.le) (by norm_num)

/-- Witness for the amended C4 statement on a drained slow bucket. -/
theorem retryAfter_spec_witness :
    (Bucket.RetryAfter ⟨5, 2/10, 2, 0⟩ 0).2
      = ⌊(1 - (Bucket.refill ⟨5, 2/10, 2, 0⟩ 0).tokens) / (2 : ℚ) * 1000000000⌋ :=
  (retryAfter_spec ⟨5, 2/10, 2, 0⟩ 0 (by norm_num)).2.2 (by
    have : (Bucket.refill ⟨5, 2/10, 2, 0⟩ 0).tokens = 2/10 := by with_unfolding_all rfl
    rw [this]; norm_num)

/-- C10: with `n ≤ 0`, `AllowN n` always returns true (the post-refill tokens
are ≥ 0 ≥ n) and changes tokens by exactly `-n`; a strictly negative `n` on a
full bucket pushes tokens strictly above capacity, and the next refill caps
them back at capacity. -/
theorem allowN_nonpositive (b : Bucket) (n : Int) (now now2 : ℚ)
    (hn : n ≤ 0) (hinv : BucketInv b) (ht : b.lastRefillTime ≤ now) (ht2 : now ≤ now2) :
    (b.AllowN n now).2 = true
    ∧ (b.AllowN n now).1.tokens = (b.refill now).tokens - (n : ℚ)
    ∧ (n < 0 → (b.refill now).tokens = (b.capacity : ℚ) →
        ((b.capacity : ℚ) < (b.AllowN n now).1.tokens
          ∧ ((b.AllowN n now).1.refill now2).tokens = (b.capacity : ℚ))) := by
  have hbr := refill_inv b now hinv ht
  have h0 : 0 ≤ (b.refill now).tokens := hbr.2.2.1
  have hnq : (n : ℚ) ≤ 0 := by exact_mod_cast hn
  have hle : (n : ℚ) ≤ (b.refill now).tokens := le_trans hnq h0
  have her : 0 ≤ (now2 - now) * b.refillRate :=
    mul_nonneg (sub_nonneg.mpr ht2) hinv.2.1.le
  have hA : b.AllowN n now
      = ({ b.refill now with tokens := (b.refill now).tokens - (n : ℚ) }, true) := by
    simp only [Bucket.AllowN, if_pos hle]
  refine ⟨by rw [hA], by rw [hA], fun hneg hcap => ?_⟩
  have hnq2 : (n : ℚ) < 0 := by exact_mod_cast hneg
  have t1 : (b.AllowN n now).1.tokens = (b.refill now).tokens - (n : ℚ) := by rw [hA]
  have t2 : (b.AllowN n now).1.lastRefillTime = now := allowN_fst_lastRefillTime b n now
  have t3 : (b.AllowN n now).1.refillRate = b.refillRate := by rw [hA]; exact refill_refillRate b now
  have t4 : (b.AllowN n now).1.capacity = b.capacity := allowN_fst_capacity b n now
  constructor
  · rw [t1, hcap]; linarith
  · rw [refill_overfull _ now2 (by rw [t1, t2, t3, t4, hcap]; linarith), t4]

/-! ### Store lemmas -/

/-- A valid configuration always constructs, giving a full bucket. -/
theorem newBucket_pos (c : Int) (r now : ℚ) (hc : 0 < c) (hr : 0 < r) :
    NewBucket c r now = .ok ⟨c, (c : ℚ), r, now⟩ := by
  simp only [NewBucket]
  rw [if_neg (not_le.mpr hc), if_neg (not_le.mpr hr)]

theorem lookupEntry_touchEntry (l : List (String × bucketEntry)) (key : String) (now : ℚ) :
    lookupEntry (touchEntry l key now) key
      = (lookupEntry l key).map (fun e => { e with lastAccessed := now }) := by
  induction l with
  | nil => rfl
  | cons kv rest ih =>
    obtain ⟨k, e⟩ := kv
    simp only [touchEntry, List.map_cons] at ih ⊢
    by_cases h : k = key
    · subst h
      rw [if_pos rfl]
      simp [lookupEntry]
    · rw [if_neg h]
      simp only [lookupEntry]
      rw [if_neg h, if_neg h]
      exact ih

theorem touchEntry_length (l : List (String × bucketEntry)) (key : String) (now : ℚ) :
    (touchEntry l key now).length = l.length := by
  simp [touchEntry]

theorem lookupEntry_eq_none (l : List (String × bucketEntry)) (key : String)
    (h : key ∉ l.map Prod.fst) : lookupEntry l key = none := by
  induction l with
  | nil => rfl
  | cons kv rest ih =>
    obtain ⟨k, e⟩ := kv
    simp only [List.map_cons, List.mem_cons, not_or] at h
    simp only [lookupEntry]
    rw [if_neg (fun hk : k = key => h.1 hk.symm)]
    exact ih h.2

theorem lookupEntry_filter (l : List (String × bucketEntry))
    (p : String × bucketEntry → Bool) (key : String)
    (hnd : (l.map Prod.fst).Nodup) (e : bucketEntry) :
    lookupEntry (l.filter p) key = some e
      ↔ lookupEntry l key = some e ∧ p (key, e) = true := by
  induction l with
  | nil => simp [lookupEntry]
  | cons kv rest ih =>
    obtain ⟨k, e0⟩ := kv
    simp only [List.map_cons, List.nodup_cons] at hnd
    obtain ⟨hk0, hnd2⟩ := hnd
    by_cases h : k = key
    · subst h
      by_cases hp : p (k, e0) = true
    -- the predicate keeps the head: both lookups hit the head
      · simp only [List.filter_cons, hp, if_pos rfl, lookupEntry]
        constructor
        · intro he
          exact ⟨he, by rw [← Option.some_inj.mp he]; exact hp⟩
        · intro he
          exact he.1
    -- the head is dropped and no duplicate of its key exists further down
      · have hrest : lookupEntry (rest.filter p) k = none := by
          refine lookupEntry_eq_none _ _ (fun hmem => hk0 ?_)
          simp only [List.mem_map] at hmem ⊢
          obtain ⟨kv2, hkv2, hfst⟩ := hmem
          exact ⟨kv2, (List.mem_filter.mp hkv2).1, hfst⟩
        simp only [List.filter_cons, hp, lookupEntry, if_pos rfl]
        rw [if_neg (by simp [hp])]
        simp only [hrest]
        constructor
        · intro he; cases he
        · intro he
          rw [← Option.some_inj.mp he.1] at he
          exact absurd he.2 (by simp [hp])
    · by_cases hp : p (k, e0) = true
      · simp only [List.filter_cons, hp, if_pos rfl, lookupEntry, if_neg h]
        exact ih hnd2
      · simp only [List.filter_cons, lookupEntry, if_neg h]
        rw [if_neg (by simp [hp])]
        exact ih hnd2

theorem countP_add_filter_not_length {α : Type} (l : List α) (p : α → Bool) :
    l.countP p + (l.filter fun x => !p x).length = l.length := by
  induction l with
  | nil => rfl
  | cons x rest ih =>
    by_cases h : p x = true <;>
      simp only [List.countP_cons, List.filter_cons, h, Bool.not_true, Bool.not_false,
        cond_true, cond_false, if_pos, if_neg, Bool.false_eq_true, not_false_iff,
        List.length_cons, ite_true, ite_false] <;>
      omega

/-- Witness for C10: `AllowN (-2)` on a full bucket overfills to 7 > 5, and the
next refill caps back to 5. -/
theorem allowN_nonpositive_witness :
    (Bucket.AllowN ⟨5, 5, 1, 0⟩ (-2) 0).2 = true
    ∧ (Bucket.AllowN ⟨5, 5, 1, 0⟩ (-2) 0).1.tokens
        = (Bucket.refill ⟨5, 5, 1, 0⟩ 0).tokens - ((-2 : ℤ) : ℚ)
    ∧ ((-2 : ℤ) < 0 → (Bucket.refill ⟨5, 5, 1, 0⟩ 0).tokens = ((5 : ℤ) : ℚ) →
        (((5 : ℤ) : ℚ) < (Bucket.AllowN ⟨5, 5, 1, 0⟩ (-2) 0).1.tokens
          ∧ ((Bucket.AllowN ⟨5, 5, 1, 0⟩ (-2) 0).1.refill 1).tokens = ((5 : ℤ) : ℚ))) :=
  allowN_nonpositive ⟨5, 5, 1, 0⟩ (-2) 0 1 (by decide)
    ⟨by decide, by norm_num, by norm_num, le_rfl⟩ (by norm_num) (by norm_num)

end SignalFence

namespace SignalFence

/-- C6: both the store `GetBucket` and the limiter `Allow` reject the empty
key with the invalid-key error immediately, returning the store exactly as it
was: no bucket is created or altered and `Count()` is unchanged. -/
theorem invalidKey_no_mutation (s : InMemoryStore) (now : ℚ) :
    s.GetBucket "" now = (s, .error .invalidKey)
    ∧ rateLimiterAllow s "" now = (s, .error .invalidKey)
    ∧ (s.GetBucket "" now).1 = s
    ∧ (s.GetBucket "" now).1.Count = s.Count := by
  refine ⟨?_, ?_, ?_, ?_⟩ <;> simp [InMemoryStore.GetBucket, rateLimiterAllow]

/-- C7: after a `GetBucket` call that produced bucket `b` for `key`, a second
`GetBucket` for the same key (no intervening `Cleanup`) returns that very
bucket — the entry is only touched, never reset — and the entry count of the store
does not grow. -/
theorem getBucket_idempotent (s s1 : InMemoryStore) (key : String) (b : Bucket)
    (now now2 : ℚ) (h : s.GetBucket key now = (s1, .ok b)) :
    s1.GetBucket key now2
      = ({ s1 with buckets := touchEntry s1.buckets key now2 }, .ok b)
    ∧ InMemoryStore.Count { s1 with buckets := touchEntry s1.buckets key now2 }
        = s1.Count := by
  have hcount : InMemoryStore.Count { s1 with buckets := touchEntry s1.buckets key now2 }
      = s1.Count := by
    simp [InMemoryStore.Count, touchEntry_length]
  refine ⟨?_, hcount⟩
  by_cases hk : key = ""
  · rw [hk] at h
    simp [InMemoryStore.GetBucket] at h
  · simp only [InMemoryStore.GetBucket, if_neg hk] at h
    cases hl : lookupEntry s.buckets key with
    | some entry =>
      rw [hl] at h
      rw [Prod.mk.injEq, Except.ok.injEq] at h
      obtain ⟨hs1, hb⟩ := h
      simp only [InMemoryStore.GetBucket, if_neg hk]
      rw [← hs1]
      have htouch : lookupEntry (touchEntry s.buckets key now) key
          = some { entry with lastAccessed := now } := by
        rw [lookupEntry_touchEntry, hl]
        rfl
      simp only [htouch]
      rw [← hb]
    | none =>
      rw [hl] at h
      cases hnb : NewBucket s.config.Capacity s.config.RefillRate now with
      | error e =>
        rw [hnb] at h
        simp at h
      | ok nb =>
        rw [hnb] at h
        rw [Prod.mk.injEq, Except.ok.injEq] at h
        obtain ⟨hs1, hb⟩ := h
        simp only [InMemoryStore.GetBucket, if_neg hk]
        rw [← hs1]
        have hhead : lookupEntry ((key, ⟨nb, now⟩) :: s.buckets) key = some ⟨nb, now⟩ := by
          simp [lookupEntry]
        simp only [hhead]
        rw [← hb]

/-- Witness for C7: a second lookup of a freshly created bucket. -/
theorem getBucket_idempotent_witness :
    InMemoryStore.GetBucket ⟨[("a", ⟨⟨1, 1, 1, 0⟩, 0⟩)], ⟨1, 1⟩, 0, 0⟩ "a" 5
        = (⟨[("a", ⟨⟨1, 1, 1, 0⟩, 5⟩)], ⟨1, 1⟩, 0, 0⟩, .ok ⟨1, 1, 1, 0⟩)
    ∧ InMemoryStore.Count ⟨[("a", ⟨⟨1, 1, 1, 0⟩, 5⟩)], ⟨1, 1⟩, 0, 0⟩
        = InMemoryStore.Count ⟨[("a", ⟨⟨1, 1, 1, 0⟩, 0⟩)], ⟨1, 1⟩, 0, 0⟩ := by
  have h2 := getBucket_idempotent ⟨[], ⟨1, 1⟩, 0, 0⟩ ⟨[("a", ⟨⟨1, 1, 1, 0⟩, 0⟩)], ⟨1, 1⟩, 0, 0⟩
    "a" ⟨1, 1, 1, 0⟩ 0 5 (by with_unfolding_all rfl)
  with_unfolding_all exact h2

/-- C8: `Cleanup` is a no-op returning 0 when `cleanupAge` is 0; otherwise it
removes exactly the entries whose `lastAccessed` lies before `now - cleanupAge`
and returns how many entries it removed; a key evicted this way is gone from
the map and a later `GetBucket` hands out a fresh bucket filled to capacity. -/
theorem cleanup_spec (s : InMemoryStore) (now : ℚ)
    (hnd : (s.buckets.map Prod.fst).Nodup) :
    (s.cleanupAge = 0 → s.Cleanup now = (s, 0))
    ∧ (s.cleanupAge ≠ 0 → ∀ key e,
        (lookupEntry (s.Cleanup now).1.buckets key = some e
          ↔ lookupEntry s.buckets key = some e ∧ ¬ e.lastAccessed < now - s.cleanupAge))
    ∧ (s.cleanupAge ≠ 0 → (s.Cleanup now).2 = s.Count - (s.Cleanup now).1.Count)
    ∧ (∀ key e now2, s.cleanupAge ≠ 0 → key ≠ "" →
        lookupEntry s.buckets key = some e → e.lastAccessed < now - s.cleanupAge →
        0 < s.config.Capacity → 0 < s.config.RefillRate →
        lookupEntry (s.Cleanup now).1.buckets key = none
        ∧ ((s.Cleanup now).1.GetBucket key now2).2
            = .ok ⟨s.config.Capacity, (s.config.Capacity : ℚ), s.config.RefillRate, now2⟩) := by
  have hmain : s.cleanupAge ≠ 0 → ∀ key e,
      (lookupEntry (s.Cleanup now).1.buckets key = some e
        ↔ lookupEntry s.buckets key = some e ∧ ¬ e.lastAccessed < now - s.cleanupAge) := by
    intro hage key e
    simp only [InMemoryStore.Cleanup, if_neg hage]
    rw [lookupEntry_filter s.buckets _ key hnd e]
    simp
  have hnone : s.cleanupAge ≠ 0 → ∀ key e,
      lookupEntry s.buckets key = some e → e.lastAccessed < now - s.cleanupAge →
      lookupEntry (s.Cleanup now).1.buckets key = none := by
    intro hage key e hsome hold
    cases hres : lookupEntry (s.Cleanup now).1.buckets key with
    | none => rfl
    | some e2 =>
      have := (hmain hage key e2).mp hres
      rw [hsome, Option.some_inj] at this
      exact absurd hold (this.1 ▸ this.2)
  refine ⟨?_, hmain, ?_, ?_⟩
  · intro hage
    simp only [InMemoryStore.Cleanup, if_pos hage]
  · intro hage
    simp only [InMemoryStore.Cleanup, if_neg hage, InMemoryStore.Count]
    have hsplit := countP_add_filter_not_length s.buckets
      (fun kv => decide (kv.2.lastAccessed < now - s.cleanupAge))
    omega
  · intro key e now2 hage hk hsome hold hc hr
    refine ⟨hnone hage key e hsome hold, ?_⟩
    simp only [InMemoryStore.GetBucket, if_neg hk, hnone hage key e hsome hold]
    have hcfg : (s.Cleanup now).1.config = s.config := by
      simp only [InMemoryStore.Cleanup, if_neg hage]
    rw [hcfg, newBucket_pos s.config.Capacity s.config.RefillRate now2 hc hr]

/-- Witness for C8: a store whose single entry went stale is emptied by
`Cleanup`, and re-fetching the key yields a fresh full bucket. -/
theorem cleanup_spec_witness :
    lookupEntry (InMemoryStore.Cleanup ⟨[("a", ⟨⟨2, 1, 1, 0⟩, 0⟩)], ⟨2, 1⟩, 10, 0⟩ 20).1.buckets "a"
        = none
    ∧ ((InMemoryStore.Cleanup ⟨[("a", ⟨⟨2, 1, 1, 0⟩, 0⟩)], ⟨2, 1⟩, 10, 0⟩ 20).1.GetBucket "a" 30).2
        = .ok ⟨2, (2 : ℚ), 1, 30⟩ := by
  have h2 := (cleanup_spec ⟨[("a", ⟨⟨2, 1, 1, 0⟩, 0⟩)], ⟨2, 1⟩, 10, 0⟩ 20 (by simp)).2.2.2
    "a" ⟨⟨2, 1, 1, 0⟩, 0⟩ 30 (by norm_num) (by simp) (by with_unfolding_all rfl)
    (by norm_num) (by norm_num) (by norm_num)
  with_unfolding_all exact h2

end SignalFence

namespace SignalFence

theorem refill_le_capacity (b : Bucket) (now : ℚ) :
    (b.refill now).tokens ≤ ((b.refill now).capacity : ℚ) := by
  rw [refill_tokens, refill_capacity]
  exact min_le_left _ _

theorem allow_fst_le_capacity (b : Bucket) (now : ℚ) :
    (b.Allow now).1.tokens ≤ ((b.Allow now).1.capacity : ℚ) := by
  simp only [Bucket.Allow, Bucket.AllowN]
  split
  · show (b.refill now).tokens - ((1 : ℤ) : ℚ) ≤ ((b.refill now).capacity : ℚ)
    have h := refill_le_capacity b now
    push_cast
    linarith
  · exact refill_le_capacity b now

/-- C5 counterexample: with capacity 1 and refill rate 3 per second, drain the
bucket at time 0, then call `Allow` again 333333333 ns later. The request is
denied (tokens = 0.999999999 < 1), yet the `RetryAfter` of the decision is 0,
because the remaining wait (1/3 ns) truncates to zero nanoseconds — refuting
"retryAfter is zero if and only if the request was allowed". -/
theorem limiter_retryAfter_zero_when_denied :
    NewInMemoryStore ⟨1, 3⟩ 3600 0 = .ok ⟨[], ⟨1, 3⟩, 3600, 0⟩
    ∧ rateLimiterAllow ⟨[], ⟨1, 3⟩, 3600, 0⟩ "k" 0
        = (⟨[("k", ⟨⟨1, 0, 3, 0⟩, 0⟩)], ⟨1, 3⟩, 3600, 0⟩, .ok ⟨true, 0, 1, 0, "k"⟩)
    ∧ (rateLimiterAllow ⟨[("k", ⟨⟨1, 0, 3, 0⟩, 0⟩)], ⟨1, 3⟩, 3600, 0⟩ "k"
          (333333333 / 1000000000)).2
        = .ok ⟨false, 0, 1, 0, "k"⟩ :=
  ⟨by with_unfolding_all rfl, by with_unfolding_all rfl, by with_unfolding_all rfl⟩

/-- C5 (amended): for a non-empty key on a validly configured store, `Allow`
returns a decision whose `allowed` is the consumption verdict of the bucket,
whose `remaining` is `bucket.Remaining()` (the truncation of the post-check
tokens), whose `limit` is `bucket.Capacity()`, and whose `retryAfter` is zero
when allowed and `bucket.RetryAfter()` when denied (the latter is normally
positive but truncates to zero when under a nanosecond of wait remains). -/
theorem rateLimiterAllow_spec (s : InMemoryStore) (key : String) (now : ℚ)
    (hk : key ≠ "") (hc : 0 < s.config.Capacity) (hr : 0 < s.config.RefillRate) :
    ∃ b s1, s.GetBucket key now = (s1, .ok b)
      ∧ (rateLimiterAllow s key now).2
          = .ok { Allowed := (b.Allow now).2,
                  Remaining := ((b.Allow now).1.Remaining now).2,
                  Limit := b.Capacity,
                  RetryAfter := if (b.Allow now).2 then 0
                                else ((b.Allow now).1.RetryAfter now).2,
                  Key := key }
      ∧ ((b.Allow now).1.Remaining now).2 = truncToInt (b.Allow now).1.tokens := by
  obtain ⟨s1, b, hget⟩ : ∃ s1 b, s.GetBucket key now = (s1, .ok b) := by
    simp only [InMemoryStore.GetBucket, if_neg hk]
    cases lookupEntry s.buckets key with
    | some entry => exact ⟨_, _, rfl⟩
    | none =>
      rw [newBucket_pos _ _ _ hc hr]
      exact ⟨_, _, rfl⟩
  have hself : (b.Allow now).1.refill now = (b.Allow now).1 :=
    refill_self _ _ (allow_fst_le_capacity b now) (allowN_fst_lastRefillTime b 1 now)
  have hretry : (if (b.Allow now).2 then (((b.Allow now).1.Remaining now).1, (0 : Int))
        else ((b.Allow now).1.Remaining now).1.RetryAfter now).2
      = if (b.Allow now).2 then 0 else ((b.Allow now).1.RetryAfter now).2 := by
    rw [remaining_fst, hself]
    by_cases hA : (b.Allow now).2 <;> simp [hA]
  refine ⟨b, s1, hget, ?_, ?_⟩
  · simp only [rateLimiterAllow, if_neg hk, hget, hretry, Bucket.Capacity]
  · show truncToInt ((b.Allow now).1.refill now).tokens = truncToInt (b.Allow now).1.tokens
    rw [hself]

/-- Witness for the amended C5 statement on a fresh store. -/
theorem rateLimiterAllow_spec_witness :
    ∃ b s1, InMemoryStore.GetBucket ⟨[], ⟨1, 3⟩, 3600, 0⟩ "k" 0 = (s1, .ok b)
      ∧ (rateLimiterAllow ⟨[], ⟨1, 3⟩, 3600, 0⟩ "k" 0).2
          = .ok { Allowed := (b.Allow 0).2,
                  Remaining := ((b.Allow 0).1.Remaining 0).2,
                  Limit := b.Capacity,
                  RetryAfter := if (b.Allow 0).2 then 0
                                else ((b.Allow 0).1.RetryAfter 0).2,
                  Key := "k" }
      ∧ ((b.Allow 0).1.Remaining 0).2 = truncToInt (b.Allow 0).1.tokens :=
  rateLimiterAllow_spec ⟨[], ⟨1, 3⟩, 3600, 0⟩ "k" 0 (by simp) (by decide) (by norm_num)

end SignalFence

/-- C9: the two package variants decide identically: for corresponding
configuration and state (equal capacity, refill rate, tokens, last refill
time) and the same call time, the signalfence `Bucket.Allow` admits exactly
when the core package function `TokenBucket.Check` does, and both leave the same
post-call token count. -/
theorem variants_equiv (cap : Int) (rate tok last now : ℚ) :
    ((SignalFence.Bucket.Allow ⟨cap, tok, rate, last⟩ now).2
        = (Core.TokenBucket.Check ⟨(cap : ℚ), rate⟩ (some ⟨tok, last⟩) now).2.Allowed)
    ∧ ((SignalFence.Bucket.Allow ⟨cap, tok, rate, last⟩ now).1.tokens
        = (Core.TokenBucket.Check ⟨(cap : ℚ), rate⟩ (some ⟨tok, last⟩) now).1.Tokens) := by
  have hmin : (if tok + (now - last) * rate > (cap : ℚ) then (cap : ℚ)
        else tok + (now - last) * rate)
      = min (tok + (now - last) * rate) ((cap : ℚ)) := by
    split
    · exact (min_eq_right (le_of_lt (by assumption))).symm
    · exact (min_eq_left (le_of_not_lt (by assumption))).symm
  simp only [SignalFence.Bucket.Allow, SignalFence.Bucket.AllowN, SignalFence.Bucket.refill,
    Core.TokenBucket.Check, hmin, Int.cast_one]
  by_cases hcond : (1 : ℚ) ≤ min (tok + (now - last) * rate) ((cap : ℚ)) <;>
    simp [hcond]
